import Mathlib

/-!
Verification of the static-analysis engine of `src/app.py` (Legacy Code
Reengineering Assistant).

The engine works on Python abstract syntax trees produced by `ast.parse`.
We embed the fragment of the Python AST that the four analysis functions
inspect (`ast.Module`, `ast.FunctionDef`, `ast.AsyncFunctionDef`,
expression statements, assignments, `ast.Name` with its `Load`/`Store`
context, `ast.Call`, constants, attribute access, lambdas, binary
operations), each node carrying its `lineno` as in CPython.

Parsing itself is CPython library code, not code of this repository: a
parse result is modelled as `Option Ast`, where `none` is the
`except Exception: return []` branch that every analysis function takes
when `ast.parse` raises.  Every analysis therefore has type
`Option Ast → ...`, mirroring the `try/except` structure of the source.

`ast.walk` is a breadth-first traversal driven by a `collections.deque`;
`walkAux` below is that loop verbatim (well-founded recursion on the
total size of the queue).  So that every analysis is computable by the
kernel we define `walk` through the fuel-indexed `walkFuel` and prove
(`walkFuel_eq_walkAux`) that with sufficient fuel it coincides with the
unbounded loop.
-/

set_option maxRecDepth 4000

inductive Ctx where
  | Load : Ctx
  | Store : Ctx
  | Del : Ctx
deriving DecidableEq, Repr

inductive Ast where
  | Module (body : List Ast) : Ast
  | FunctionDef (name : String) (body : List Ast) (lineno : Nat) : Ast
  | AsyncFunctionDef (name : String) (body : List Ast) (lineno : Nat) : Ast
  | ExprStmt (value : Ast) (lineno : Nat) : Ast
  | Assign (targets : List Ast) (value : Ast) (lineno : Nat) : Ast
  | Pass (lineno : Nat) : Ast
  | Name (id : String) (ctx : Ctx) (lineno : Nat) : Ast
  | Call (func : Ast) (args : List Ast) (lineno : Nat) : Ast
  | Constant (lineno : Nat) : Ast
  | Attribute (value : Ast) (attr : String) (ctx : Ctx) (lineno : Nat) : Ast
  | Lambda (body : Ast) (lineno : Nat) : Ast
  | BinOp (left : Ast) (right : Ast) (lineno : Nat) : Ast

/-- The `lineno` attribute of a node (`ast.Module` has none; it is never
asked for one by the source code, we return 0). -/
def Ast.lineno : Ast → Nat
  | .Module _ => 0
  | .FunctionDef _ _ l => l
  | .AsyncFunctionDef _ _ l => l
  | .ExprStmt _ l => l
  | .Assign _ _ l => l
  | .Pass l => l
  | .Name _ _ l => l
  | .Call _ _ l => l
  | .Constant l => l
  | .Attribute _ _ _ l => l
  | .Lambda _ l => l
  | .BinOp _ _ l => l

/-- `ast.iter_child_nodes`: the child AST nodes of a node, in field order. -/
def children : Ast → List Ast
  | .Module body => body
  | .FunctionDef _ body _ => body
  | .AsyncFunctionDef _ body _ => body
  | .ExprStmt v _ => [v]
  | .Assign targets v _ => targets ++ [v]
  | .Pass _ => []
  | .Name _ _ _ => []
  | .Call f args _ => f :: args
  | .Constant _ => []
  | .Attribute v _ _ _ => [v]
  | .Lambda b _ => [b]
  | .BinOp l r _ => [l, r]

mutual

/-- Number of AST nodes in a tree (used as a termination measure and as
fuel for the breadth-first walk). -/
def astBound : Ast → Nat
  | .Module body => 1 + astBoundList body
  | .FunctionDef _ body _ => 1 + astBoundList body
  | .AsyncFunctionDef _ body _ => 1 + astBoundList body
  | .ExprStmt v _ => 1 + astBound v
  | .Assign targets v _ => 1 + astBoundList targets + astBound v
  | .Pass _ => 1
  | .Name _ _ _ => 1
  | .Call f args _ => 1 + astBound f + astBoundList args
  | .Constant _ => 1
  | .Attribute v _ _ _ => 1 + astBound v
  | .Lambda b _ => 1 + astBound b
  | .BinOp l r _ => 1 + astBound l + astBound r

/-- Total number of AST nodes in a list of trees. -/
def astBoundList : List Ast → Nat
  | [] => 0
  | a :: rest => astBound a + astBoundList rest

end

theorem astBoundList_eq_sum (l : List Ast) : astBoundList l = (l.map astBound).sum := by
  induction l with
  | nil => rfl
  | cons a rest ih => simp [astBoundList, ih]

theorem one_le_astBound (n : Ast) : 1 ≤ astBound n := by
  cases n <;> simp [astBound] <;> omega

theorem children_astBound_lt (n : Ast) : ((children n).map astBound).sum < astBound n := by
  cases n <;>
    simp [children, astBound, astBoundList_eq_sum, List.map_append, List.sum_append]

theorem walk_measure_lt (n : Ast) (rest : List Ast) :
    ((rest ++ children n).map astBound).sum < ((n :: rest).map astBound).sum := by
  have h := children_astBound_lt n
  simp [List.map_append, List.sum_append]
  omega

/-- `ast.walk` exactly as in CPython: a deque seeded with the given
nodes; pop from the left, enqueue the children, yield the node. -/
def walkAux : List Ast → List Ast
  | [] => []
  | n :: rest => n :: walkAux (rest ++ children n)
termination_by q => (q.map astBound).sum
decreasing_by
  exact walk_measure_lt _ _

/-- Fuel-indexed version of the breadth-first walk, structurally
recursive so that the kernel can evaluate it. -/
def walkFuel : Nat → List Ast → List Ast
  | 0, _ => []
  | _ + 1, [] => []
  | fuel + 1, n :: rest => n :: walkFuel fuel (rest ++ children n)

theorem walkFuel_eq_walkAux (fuel : Nat) (q : List Ast)
    (h : (q.map astBound).sum ≤ fuel) : walkFuel fuel q = walkAux q := by
  induction fuel generalizing q with
  | zero =>
    cases q with
    | nil => simp [walkFuel, walkAux]
    | cons n rest =>
      exfalso
      have h1 := one_le_astBound n
      simp at h
      omega
  | succ f ih =>
    cases q with
    | nil => simp [walkFuel, walkAux]
    | cons n rest =>
      have h1 := children_astBound_lt n
      simp at h
      have h2 : ((rest ++ children n).map astBound).sum ≤ f := by
        simp [List.map_append, List.sum_append]
        omega
      simp only [walkFuel, walkAux]
      rw [ih _ h2]

/-- `ast.walk(t)`: breadth-first enumeration of all nodes of `t`,
starting with `t` itself. -/
def walk (t : Ast) : List Ast := walkFuel (astBound t) [t]

theorem walk_eq_walkAux (t : Ast) : walk t = walkAux [t] := by
  apply walkFuel_eq_walkAux
  simp

/-!
The four analysis functions of `src/app.py`.  Each takes the result of
`try: tree = ast.parse(source_code)` as an `Option Ast` (`none` = the
`except` branch) and mirrors the Python body line by line.
-/

/-- The filter/projection of the list comprehension in
`parse_python_functions`: `node.name` when
`isinstance(node, ast.FunctionDef)`. -/
def defName : Ast → Option String
  | .FunctionDef name _ _ => some name
  | _ => none

/-- `isinstance(node, ast.FunctionDef)` (async defs and lambdas are
distinct classes and do not pass this test). -/
def isFuncDef : Ast → Bool
  | .FunctionDef _ _ _ => true
  | _ => false

/-- `parse_python_functions` from `src/app.py`:
`[node.name for node in ast.walk(tree) if isinstance(node, ast.FunctionDef)]`,
`[]` when parsing failed. -/
def parse_python_functions : Option Ast → List String
  | none => []
  | some tree => (walk tree).filterMap defName

/-- Sorted insertion of a line number keeping the list strictly
ascending and duplicate-free (building block of `sorted(set(lines))`). -/
def insertSorted (x : Nat) : List Nat → List Nat
  | [] => [x]
  | y :: ys =>
    if x < y then x :: y :: ys
    else if x = y then y :: ys
    else y :: insertSorted x ys

/-- `sorted(set(lines))`: the strictly ascending enumeration of the set
of collected line numbers. -/
def sortedDedup : List Nat → List Nat
  | [] => []
  | x :: xs => insertSorted x (sortedDedup xs)

/-- The body of the `for` loop in `find_variable_usage`: the `lineno` of
a node when it is an `ast.Name` whose `id` equals `var_name`. -/
def nameLine (var_name : String) : Ast → Option Nat
  | .Name id _ l => if id = var_name then some l else none
  | _ => none

/-- `find_variable_usage` from `src/app.py`: collect `node.lineno` for
every `ast.Name` node with `node.id == var_name` over `ast.walk(tree)`,
return `sorted(set(lines))`; `[]` when parsing failed. -/
def find_variable_usage : Option Ast → String → List Nat
  | none, _ => []
  | some tree, var_name => sortedDedup ((walk tree).filterMap (nameLine var_name))

/-- The body of the `for` loop in `find_long_functions`: for a
`FunctionDef` with non-empty body,
`func_len = node.body[-1].lineno - node.body[0].lineno + 1`, kept when
`func_len > length_threshold`. -/
def longEntry (length_threshold : Int) : Ast → Option (String × Int)
  | .FunctionDef name body _ =>
    match body.head?, body.getLast? with
    | some first, some last =>
      let func_len : Int := (last.lineno : Int) - (first.lineno : Int) + 1
      if func_len > length_threshold then some (name, func_len) else none
    | _, _ => none
  | _ => none

/-- `find_long_functions` from `src/app.py`; `[]` when parsing failed. -/
def find_long_functions : Option Ast → Int → List (String × Int)
  | none, _ => []
  | some tree, length_threshold => (walk tree).filterMap (longEntry length_threshold)

/-- `networkx.DiGraph` as far as the source uses it: insertion-ordered
node and edge lists without duplicates. -/
structure DiGraph where
  nodes : List String
  edges : List (String × String)
deriving DecidableEq, Repr

def DiGraph.empty : DiGraph := ⟨[], []⟩

/-- `graph.add_node(n)`: a no-op when the node is already present. -/
def addNode (g : DiGraph) (n : String) : DiGraph :=
  if n ∈ g.nodes then g else ⟨g.nodes ++ [n], g.edges⟩

/-- `graph.add_edge(u, v)`: adds missing endpoints, then the edge unless
it is already present (a `DiGraph` is simple, not a multigraph). -/
def addEdge (g : DiGraph) (u v : String) : DiGraph :=
  let g1 := addNode (addNode g u) v
  if (u, v) ∈ g1.edges then g1 else ⟨g1.nodes, g1.edges ++ [(u, v)]⟩

/-- `called_func in funcs`: membership test on the keys of the function
dictionary. -/
def hasKey (d : List (String × Ast)) (k : String) : Bool :=
  d.any (fun p => p.1 == k)

/-- One insertion into the insertion-ordered dictionary
`{node.name: node for ...}`: a later value for an existing key replaces
the stored value but keeps the key position. -/
def dictInsert (d : List (String × Ast)) (k : String) (v : Ast) : List (String × Ast) :=
  if hasKey d k then d.map (fun p => if p.1 == k then (k, v) else p)
  else d ++ [(k, v)]

/-- One step of the dict comprehension in `build_call_graph`. -/
def dictStep (d : List (String × Ast)) (n : Ast) : List (String × Ast) :=
  match n with
  | .FunctionDef name body l => dictInsert d name (.FunctionDef name body l)
  | _ => d

/-- `funcs = {node.name: node for node in ast.walk(tree) if isinstance(node, ast.FunctionDef)}`. -/
def funcsDict (tree : Ast) : List (String × Ast) :=
  (walk tree).foldl dictStep []

/-- `node.func.id` when
`isinstance(node, ast.Call) and isinstance(node.func, ast.Name)`. -/
def callTo : Ast → Option String
  | .Call func _ _ =>
    match func with
    | .Name id _ _ => some id
    | _ => none
  | _ => none

/-- The body of the inner `for` loop of `build_call_graph`: when the
walked node is a direct bare-name call to a name present in `funcs`,
add the edge `func_name → called_func`. -/
def callStep (funcs : List (String × Ast)) (func_name : String) (g : DiGraph) (n : Ast) :
    DiGraph :=
  match callTo n with
  | some called_func => if hasKey funcs called_func then addEdge g func_name called_func else g
  | none => g

/-- The body of the outer `for` loop of `build_call_graph`:
`graph.add_node(func_name)`, then scan `ast.walk(func_node)` for calls. -/
def outerStep (funcs : List (String × Ast)) (g : DiGraph) (p : String × Ast) : DiGraph :=
  (walk p.2).foldl (callStep funcs p.1) (addNode g p.1)

/-- `build_call_graph` from `src/app.py`; the empty graph when parsing
failed. -/
def build_call_graph : Option Ast → DiGraph
  | none => DiGraph.empty
  | some tree =>
    let funcs := funcsDict tree
    funcs.foldl (outerStep funcs) DiGraph.empty

/-!
Concrete source units used by the spec's scenarios and by the
counterexamples, written as the tree `ast.parse` produces for them.
-/

/-- Scenario A: `def f(): pass` (line 1), `def g(): f()` (line 2). -/
def treeA : Ast :=
  .Module
    [.FunctionDef ("f") [.Pass 1] 1,
     .FunctionDef ("g") [.ExprStmt (.Call (.Name ("f") .Load 2) [] 2) 2] 2]

/-- Scenario B: `x = 1` / `print(x)` / `x = x + 1` (lines 1-3). -/
def treeB : Ast :=
  .Module
    [.Assign [.Name ("x") .Store 1] (.Constant 1) 1,
     .ExprStmt (.Call (.Name ("print") .Load 2) [.Name ("x") .Load 2] 2) 2,
     .Assign [.Name ("x") .Store 3] (.BinOp (.Name ("x") .Load 3) (.Constant 3) 3) 3]

/-- Scenario C: a function whose first body statement starts at line 5
and whose last body statement starts at line 14 (`def` on line 4). -/
def treeC : Ast :=
  .Module
    [.FunctionDef ("long_fn")
      [.ExprStmt (.Call (.Name ("work") .Load 5) [] 5) 5,
       .ExprStmt (.Call (.Name ("work") .Load 14) [] 14) 14] 4]

/-- Scenario E: two functions both named `h`, at lines 1 and 2. -/
def treeE : Ast :=
  .Module [.FunctionDef ("h") [.Pass 1] 1, .FunctionDef ("h") [.Pass 2] 2]

/-- Counterexample source for C2: `def f(): g()` (line 1),
`def f(): pass` (line 2), `def g(): pass` (line 3).  The first `f`
calls `g`, but the dict keeps only the second `f`. -/
def cxC2 : Ast :=
  .Module
    [.FunctionDef ("f") [.ExprStmt (.Call (.Name ("g") .Load 1) [] 1) 1] 1,
     .FunctionDef ("f") [.Pass 2] 2,
     .FunctionDef ("g") [.Pass 3] 3]

/-- Counterexample source for C4: `def f():` (line 1) / `    x = 1`
(line 2).  Whole span is lines 1-2, the body spans line 2 only. -/
def cxC4 : Ast :=
  .Module [.FunctionDef ("f") [.Assign [.Name ("x") .Store 2] (.Constant 2) 2] 1]

/-- Counterexample source for C5: `x = 1` — the only occurrence of `x`
is an assignment target (Store context), not a read. -/
def cxC5 : Ast :=
  .Module [.Assign [.Name ("x") .Store 1] (.Constant 1) 1]

/-- Counterexample source for C7: `def a():` / `    def c(): pass`
(lines 1-2) and `def b(): pass` (line 3).  Pre-order is a, c, b;
the breadth-first walk gives a, b, c. -/
def cxC7 : Ast :=
  .Module
    [.FunctionDef ("a") [.FunctionDef ("c") [.Pass 2] 2] 1,
     .FunctionDef ("b") [.Pass 3] 3]

/-- Source for C9: an async def whose body holds a lambda —
`async def a(): lambda: 1`. -/
def treeC9 : Ast :=
  .Module [.AsyncFunctionDef ("a") [.ExprStmt (.Lambda (.Constant 1) 1) 1] 1]

/-- Source for C10: `def f():` / `    def g():` / `        h()`
(lines 1-3) and `def h(): pass` (line 4). -/
def treeC10 : Ast :=
  .Module
    [.FunctionDef ("f")
      [.FunctionDef ("g") [.ExprStmt (.Call (.Name ("h") .Load 3) [] 3) 3] 2] 1,
     .FunctionDef ("h") [.Pass 4] 4]

example : parse_python_functions (some treeA) = ["f", "g"] := by decide
example : build_call_graph (some treeA) = ⟨["f", "g"], [("g", "f")]⟩ := by decide
example : find_variable_usage (some treeB) ("x") = [1, 2, 3] := by decide
example : find_long_functions (some treeC) 9 = [("long_fn", 10)] := by decide
example : find_long_functions (some treeC) 10 = [] := by decide
example : parse_python_functions (some treeE) = ["h", "h"] := by decide
example : build_call_graph (some cxC2) = ⟨["f", "g"], []⟩ := by decide
example : find_long_functions (some cxC4) 1 = [] := by decide
example : find_variable_usage (some cxC5) ("x") = [1] := by decide
example : parse_python_functions (some cxC7) = ["a", "b", "c"] := by decide
example : parse_python_functions (some treeC9) = [] := by decide
example : build_call_graph (some treeC9) = DiGraph.empty := by decide
example : build_call_graph (some treeC10) =
    ⟨["f", "h", "g"], [("f", "h"), ("g", "h")]⟩ := by decide

/-!
Definitions written from the spec's own words, used to state the claims
that compare the code's behaviour with the spec's description.
-/

/-- The catalog as (name, definition node) pairs, one per
`FunctionDef` node of the walk, in walk order (not collapsed by name). -/
def defRecords (tree : Ast) : List (String × Ast) :=
  (walk tree).filterMap (fun n =>
    match n with
    | .FunctionDef name body l => some (name, .FunctionDef name body l)
    | _ => none)

/-- Whether the subtree of a catalog definition contains a direct call
whose callee is the bare name `b`. -/
def callsBare (fnode : Ast) (b : String) : Bool :=
  (walk fnode).any (fun n => callTo n == some b)

/-- Modelled from the spec: "edge `A → B` exists if the body of function
A contains a direct call to a name that resolves to a function B in the
same catalog" — some catalog definition named `a` contains a direct
bare-name call to `b`, and `b` is a catalog name. -/
def specEdgeExists (tree : Ast) (a b : String) : Bool :=
  ((defRecords tree).any (fun p => p.1 == a && callsBare p.2 b)) &&
    ((defRecords tree).any (fun p => p.1 == b))

/-- The largest `lineno` occurring in a definition's subtree: with every
statement on its own line this is the function's `end_line`. -/
def maxLine (fnode : Ast) : Nat :=
  ((walk fnode).map Ast.lineno).foldl Nat.max 0

/-- Modelled from the spec: "length = `end_line - start_line + 1`" over
the function's whole span, the `def` line included. -/
def spanLength (fnode : Ast) : Int :=
  (maxLine fnode : Int) - (fnode.lineno : Int) + 1

/-- Modelled from the spec: "ordered sequence of `(name, length)` pairs,
one per FunctionRecord whose span exceeds the threshold". -/
def specLongFunctions (tree : Ast) (threshold : Int) : List (String × Int) :=
  (defRecords tree).filterMap (fun p =>
    if spanLength p.2 > threshold then some (p.1, spanLength p.2) else none)

/-- Whether a node is an identifier read reference (an `ast.Name` in
`Load` context) with the given name on the given line. -/
def isLoadRef (var_name : String) (line : Nat) (n : Ast) : Bool :=
  match n with
  | .Name id .Load l => id == var_name && l == line
  | _ => false

/-- Modelled from the spec: "line numbers where that identifier appears
as a read reference" — every reported line carries a `Load`-context
`Name` node with the queried name. -/
def specOnlyReadRefs (tree : Ast) (var_name : String) : Bool :=
  (find_variable_usage (some tree) var_name).all
    (fun l => (walk tree).any (isLoadRef var_name l))

mutual

/-- Modelled from the spec: "tree traversal order (pre-order, so
enclosing functions appear before their nested definitions)" — the
function names collected by a depth-first pre-order traversal. -/
def preorderNames : Ast → List String
  | .Module body => preorderNamesList body
  | .FunctionDef name body _ => name :: preorderNamesList body
  | .AsyncFunctionDef _ body _ => preorderNamesList body
  | .ExprStmt v _ => preorderNames v
  | .Assign targets v _ => preorderNamesList targets ++ preorderNames v
  | .Pass _ => []
  | .Name _ _ _ => []
  | .Call f args _ => preorderNames f ++ preorderNamesList args
  | .Constant _ => []
  | .Attribute v _ _ _ => preorderNames v
  | .Lambda b _ => preorderNames b
  | .BinOp l r _ => preorderNames l ++ preorderNames r

/-- Pre-order function names of a list of siblings, left to right. -/
def preorderNamesList : List Ast → List String
  | [] => []
  | a :: rest => preorderNames a ++ preorderNamesList rest

end

example : specEdgeExists cxC2 ("f") ("g") = true := by decide
example : specLongFunctions cxC4 1 = [("f", 2)] := by decide
example : specOnlyReadRefs cxC5 ("x") = false := by decide
example : preorderNames cxC7 = ["a", "c", "b"] := by decide

/-!
General properties of the breadth-first walk: it enumerates the tree
level by level, and it visits every node exactly once (node counts).
-/

theorem flatMap_children_bound (q : List Ast) :
    ((q.flatMap children).map astBound).sum + q.length ≤ (q.map astBound).sum := by
  induction q with
  | nil => simp
  | cons n rest ih =>
    have h := children_astBound_lt n
    simp only [List.flatMap_cons, List.map_append, List.sum_append, List.map_cons,
      List.sum_cons, List.length_cons]
    omega

theorem level_measure_lt (n : Ast) (rest : List Ast) :
    (((n :: rest).flatMap children).map astBound).sum < ((n :: rest).map astBound).sum := by
  have h := flatMap_children_bound (n :: rest)
  simp only [List.length_cons] at h
  omega

/-- Level-by-level traversal: emit the whole queue, then recurse on the
concatenation of all its children. -/
def levelTraversal : List Ast → List Ast
  | [] => []
  | n :: rest => (n :: rest) ++ levelTraversal ((n :: rest).flatMap children)
termination_by q => (q.map astBound).sum
decreasing_by
  exact level_measure_lt _ _

theorem walkAux_append (q r : List Ast) :
    walkAux (q ++ r) = q ++ walkAux (r ++ q.flatMap children) := by
  induction q generalizing r with
  | nil => simp
  | cons n q' ih =>
    have h := ih (r ++ children n)
    simp only [List.cons_append, walkAux, List.append_assoc, List.flatMap_cons] at *
    rw [h]

/-- The queue-driven breadth-first loop of `ast.walk` yields the nodes
in level order. -/
theorem walkAux_eq_levelTraversal (q : List Ast) : walkAux q = levelTraversal q := by
  induction q using levelTraversal.induct with
  | case1 => simp [walkAux, levelTraversal]
  | case2 n rest ih =>
    have h := walkAux_append (n :: rest) []
    simp only [List.append_nil, List.nil_append] at h
    rw [h, ih, levelTraversal]

mutual

/-- Structural count of the nodes satisfying `p` in a tree. -/
def treeCount (p : Ast → Bool) : Ast → Nat
  | .Module body => (if p (.Module body) then 1 else 0) + treeCountList p body
  | .FunctionDef name body l =>
    (if p (.FunctionDef name body l) then 1 else 0) + treeCountList p body
  | .AsyncFunctionDef name body l =>
    (if p (.AsyncFunctionDef name body l) then 1 else 0) + treeCountList p body
  | .ExprStmt v l => (if p (.ExprStmt v l) then 1 else 0) + treeCount p v
  | .Assign targets v l =>
    (if p (.Assign targets v l) then 1 else 0) + treeCountList p targets + treeCount p v
  | .Pass l => if p (.Pass l) then 1 else 0
  | .Name id c l => if p (.Name id c l) then 1 else 0
  | .Call f args l =>
    (if p (.Call f args l) then 1 else 0) + treeCount p f + treeCountList p args
  | .Constant l => if p (.Constant l) then 1 else 0
  | .Attribute v a c l => (if p (.Attribute v a c l) then 1 else 0) + treeCount p v
  | .Lambda b l => (if p (.Lambda b l) then 1 else 0) + treeCount p b
  | .BinOp lft rgt l =>
    (if p (.BinOp lft rgt l) then 1 else 0) + treeCount p lft + treeCount p rgt

/-- Structural count over a list of sibling trees. -/
def treeCountList (p : Ast → Bool) : List Ast → Nat
  | [] => 0
  | a :: rest => treeCount p a + treeCountList p rest

end

theorem treeCountList_eq_sum (p : Ast → Bool) (l : List Ast) :
    treeCountList p l = (l.map (treeCount p)).sum := by
  induction l with
  | nil => rfl
  | cons a rest ih => simp [treeCountList, ih]

theorem treeCount_eq_children (p : Ast → Bool) (n : Ast) :
    treeCount p n = (if p n then 1 else 0) + ((children n).map (treeCount p)).sum := by
  cases n <;>
    simp [treeCount, children, treeCountList_eq_sum, List.map_append, List.sum_append] <;>
    omega

/-- The breadth-first walk visits each node of each queued tree exactly
once: counting over the walk equals the structural count. -/
theorem countP_walkAux (p : Ast → Bool) (q : List Ast) :
    (walkAux q).countP p = (q.map (treeCount p)).sum := by
  induction q using walkAux.induct with
  | case1 => simp [walkAux]
  | case2 n rest ih =>
    rw [walkAux, List.countP_cons, ih]
    have h := treeCount_eq_children p n
    simp only [List.map_append, List.sum_append, List.map_cons, List.sum_cons]
    omega

/-!
Properties of `sorted(set(lines))`.
-/

theorem mem_insertSorted (x z : Nat) (l : List Nat) :
    z ∈ insertSorted x l ↔ z = x ∨ z ∈ l := by
  induction l with
  | nil => simp [insertSorted]
  | cons y ys ih =>
    simp only [insertSorted]
    split
    · simp [List.mem_cons]
    · split
      · rename_i h1 h2
        subst h2
        simp [List.mem_cons]
      · simp [List.mem_cons, ih]
        tauto

theorem pairwise_insertSorted (x : Nat) (l : List Nat) (h : l.Pairwise (· < ·)) :
    (insertSorted x l).Pairwise (· < ·) := by
  induction l with
  | nil => simp [insertSorted]
  | cons y ys ih =>
    rw [List.pairwise_cons] at h
    obtain ⟨hy, hys⟩ := h
    simp only [insertSorted]
    split
    · rename_i h1
      rw [List.pairwise_cons]
      refine ⟨?_, by rw [List.pairwise_cons]; exact ⟨hy, hys⟩⟩
      intro z hz
      rcases List.mem_cons.mp hz with rfl | hz'
      · exact h1
      · exact Nat.lt_trans h1 (hy z hz')
    · split
      · rw [List.pairwise_cons]
        exact ⟨hy, hys⟩
      · rename_i h1 h2
        rw [List.pairwise_cons]
        refine ⟨?_, ih hys⟩
        intro z hz
        rcases (mem_insertSorted x z ys).mp hz with rfl | hz'
        · omega
        · exact hy z hz'

theorem pairwise_sortedDedup (l : List Nat) : (sortedDedup l).Pairwise (· < ·) := by
  induction l with
  | nil => simp [sortedDedup]
  | cons x xs ih => exact pairwise_insertSorted x _ ih

theorem mem_sortedDedup (z : Nat) (l : List Nat) : z ∈ sortedDedup l ↔ z ∈ l := by
  induction l with
  | nil => simp [sortedDedup]
  | cons x xs ih =>
    simp [sortedDedup, mem_insertSorted, ih]

/-- Membership characterization of `find_variable_usage`: a line is
reported exactly when some `ast.Name` node with the queried identifier
(in any context) sits on that line. -/
theorem mem_find_variable_usage (tree : Ast) (var_name : String) (line : Nat) :
    line ∈ find_variable_usage (some tree) var_name ↔
      ∃ c, Ast.Name var_name c line ∈ walk tree := by
  simp only [find_variable_usage, mem_sortedDedup, List.mem_filterMap]
  constructor
  · rintro ⟨n, hn, he⟩
    cases n
    case Name id c l =>
      simp only [nameLine] at he
      split at he
      · rename_i hid
        subst hid
        cases he
        exact ⟨c, hn⟩
      · cases he
    all_goals simp [nameLine] at he
  · rintro ⟨c, hc⟩
    exact ⟨.Name var_name c line, hc, by simp [nameLine]⟩

/-!
Properties of the function dictionary and of the `DiGraph` operations.
-/

theorem hasKey_iff (d : List (String × Ast)) (k : String) :
    hasKey d k = true ↔ ∃ v, (k, v) ∈ d := by
  simp only [hasKey, List.any_eq_true, beq_iff_eq]
  constructor
  · rintro ⟨p, hp, he⟩
    exact ⟨p.2, by rwa [show (k, p.2) = p from by rw [← he]] ⟩
  · rintro ⟨v, hv⟩
    exact ⟨(k, v), hv, rfl⟩

theorem mem_dictInsert (d : List (String × Ast)) (k k1 : String) (v v1 : Ast)
    (h : (k1, v1) ∈ dictInsert d k v) : (k1, v1) ∈ d ∨ (k1 = k ∧ v1 = v) := by
  unfold dictInsert at h
  split at h
  · obtain ⟨p, hp, he⟩ := List.mem_map.mp h
    by_cases hk : p.1 = k
    · simp [hk] at he
      right
      exact ⟨he.1.symm, he.2.symm⟩
    · simp [hk] at he
      left
      rwa [he] at hp
  · rcases List.mem_append.mp h with h1 | h1
    · left; exact h1
    · right
      simp at h1
      exact ⟨h1.1, h1.2⟩

theorem dict_fold_mem (ns : List Ast) (d : List (String × Ast)) (k : String) (v : Ast)
    (h : (k, v) ∈ ns.foldl dictStep d) :
    (k, v) ∈ d ∨ (v ∈ ns ∧ ∃ body l, v = .FunctionDef k body l) := by
  induction ns generalizing d with
  | nil => left; exact h
  | cons n rest ih =>
    rw [List.foldl_cons] at h
    rcases ih (dictStep d n) h with h1 | h1
    · cases n
      case FunctionDef name body l =>
        simp only [dictStep] at h1
        rcases mem_dictInsert _ _ _ _ _ h1 with h2 | h2
        · left; exact h2
        · right
          obtain ⟨rfl, rfl⟩ := h2
          exact ⟨List.mem_cons_self _ _, body, l, rfl⟩
      all_goals (left; simpa [dictStep] using h1)
    · right
      exact ⟨List.mem_cons_of_mem _ h1.1, h1.2⟩

/-- Every entry of `funcs` stores a `FunctionDef` node of the walk under
its own name. -/
theorem funcsDict_mem (tree : Ast) (k : String) (v : Ast) (h : (k, v) ∈ funcsDict tree) :
    v ∈ walk tree ∧ ∃ body l, v = .FunctionDef k body l := by
  rcases dict_fold_mem (walk tree) [] k v h with h1 | h1
  · cases h1
  · exact h1

/-- Every key of `funcs` is a catalog name. -/
theorem hasKey_mem_catalog (tree : Ast) (k : String)
    (h : hasKey (funcsDict tree) k = true) : k ∈ parse_python_functions (some tree) := by
  obtain ⟨v, hv⟩ := (hasKey_iff _ _).mp h
  obtain ⟨hw, body, l, rfl⟩ := funcsDict_mem tree k v hv
  simp only [parse_python_functions, List.mem_filterMap]
  exact ⟨_, hw, by simp [defName]⟩

theorem edges_addNode (g : DiGraph) (n : String) : (addNode g n).edges = g.edges := by
  unfold addNode
  split <;> rfl

theorem mem_nodes_addNode (g : DiGraph) (n m : String) :
    m ∈ (addNode g n).nodes ↔ m ∈ g.nodes ∨ m = n := by
  unfold addNode
  split
  · rename_i h
    constructor
    · tauto
    · rintro (h1 | rfl)
      · exact h1
      · exact h
  · simp [List.mem_append]

theorem mem_edges_addEdge (g : DiGraph) (u v : String) (e : String × String) :
    e ∈ (addEdge g u v).edges ↔ e ∈ g.edges ∨ e = (u, v) := by
  simp only [addEdge]
  split
  · rename_i h
    rw [edges_addNode, edges_addNode] at h ⊢
    constructor
    · tauto
    · rintro (h1 | rfl)
      · exact h1
      · exact h
  · simp only [edges_addNode]
    simp [List.mem_append]

theorem mem_nodes_addEdge (g : DiGraph) (u v : String) (m : String) :
    m ∈ (addEdge g u v).nodes ↔ m ∈ g.nodes ∨ m = u ∨ m = v := by
  simp only [addEdge]
  split <;> simp [mem_nodes_addNode] <;> tauto

theorem edges_callStep (funcs : List (String × Ast)) (a : String) (g : DiGraph) (n : Ast)
    (e : String × String) :
    e ∈ (callStep funcs a g n).edges ↔
      e ∈ g.edges ∨ ∃ b, callTo n = some b ∧ hasKey funcs b = true ∧ e = (a, b) := by
  simp only [callStep]
  cases hc : callTo n <;> simp only [hc]
  · simp
  · rename_i b
    split
    · rename_i hk
      rw [mem_edges_addEdge]
      simp [hk]
    · rename_i hk
      simp [hk]

theorem edges_innerFold (funcs : List (String × Ast)) (a : String) (ns : List Ast)
    (g : DiGraph) (e : String × String) :
    e ∈ (ns.foldl (callStep funcs a) g).edges ↔
      e ∈ g.edges ∨ ∃ n ∈ ns, ∃ b, callTo n = some b ∧ hasKey funcs b = true ∧ e = (a, b) := by
  induction ns generalizing g with
  | nil => simp
  | cons n rest ih =>
    rw [List.foldl_cons, ih, edges_callStep]
    simp only [List.exists_mem_cons_iff]
    rw [or_assoc]

theorem nodes_callStep (funcs : List (String × Ast)) (a : String) (g : DiGraph) (n : Ast)
    (m : String) (h : m ∈ (callStep funcs a g n).nodes) :
    m ∈ g.nodes ∨ m = a ∨ hasKey funcs m = true := by
  revert h
  simp only [callStep]
  cases hc : callTo n <;> simp only [hc]
  · tauto
  · rename_i b
    split
    · rename_i hk
      rw [mem_nodes_addEdge]
      rintro (h1 | rfl | rfl)
      · tauto
      · tauto
      · right; right; exact hk
    · tauto

theorem nodes_innerFold (funcs : List (String × Ast)) (a : String) (ns : List Ast)
    (g : DiGraph) (m : String) (h : m ∈ (ns.foldl (callStep funcs a) g).nodes) :
    m ∈ g.nodes ∨ m = a ∨ hasKey funcs m = true := by
  induction ns generalizing g with
  | nil => left; exact h
  | cons n rest ih =>
    rw [List.foldl_cons] at h
    rcases ih _ h with h1 | h1
    · exact nodes_callStep funcs a g n m h1
    · right; exact h1

theorem edges_outerStep (funcs : List (String × Ast)) (g : DiGraph) (p : String × Ast)
    (e : String × String) :
    e ∈ (outerStep funcs g p).edges ↔
      e ∈ g.edges ∨ ∃ n ∈ walk p.2, ∃ b,
        callTo n = some b ∧ hasKey funcs b = true ∧ e = (p.1, b) := by
  simp only [outerStep]
  rw [edges_innerFold, edges_addNode]

theorem edges_outerFold (funcs : List (String × Ast)) (fs : List (String × Ast))
    (g : DiGraph) (e : String × String) :
    e ∈ (fs.foldl (outerStep funcs) g).edges ↔
      e ∈ g.edges ∨ ∃ p ∈ fs, ∃ n ∈ walk p.2, ∃ b,
        callTo n = some b ∧ hasKey funcs b = true ∧ e = (p.1, b) := by
  induction fs generalizing g with
  | nil => simp
  | cons p rest ih =>
    rw [List.foldl_cons, ih, edges_outerStep]
    simp only [List.exists_mem_cons_iff]
    rw [or_assoc]

theorem nodes_outerStep (funcs : List (String × Ast)) (g : DiGraph) (p : String × Ast)
    (m : String) (h : m ∈ (outerStep funcs g p).nodes) :
    m ∈ g.nodes ∨ m = p.1 ∨ hasKey funcs m = true := by
  simp only [outerStep] at h
  rcases nodes_innerFold funcs p.1 (walk p.2) _ m h with h1 | h1
  · rw [mem_nodes_addNode] at h1
    tauto
  · tauto

theorem nodes_outerFold (funcs : List (String × Ast)) (fs : List (String × Ast))
    (g : DiGraph) (m : String) (h : m ∈ (fs.foldl (outerStep funcs) g).nodes) :
    m ∈ g.nodes ∨ (∃ p ∈ fs, m = p.1) ∨ hasKey funcs m = true := by
  induction fs generalizing g with
  | nil => left; exact h
  | cons p rest ih =>
    rw [List.foldl_cons] at h
    rcases ih _ h with h1 | h1 | h1
    · rcases nodes_outerStep funcs g p m h1 with h2 | h2 | h2
      · left; exact h2
      · right; left; exact ⟨p, List.mem_cons_self _ _, h2⟩
      · right; right; exact h2
    · obtain ⟨q, hq, rfl⟩ := h1
      right; left; exact ⟨q, List.mem_cons_of_mem _ hq, rfl⟩
    · right; right; exact h1

/-- Edge membership in the call graph built by `build_call_graph`:
`(a, b)` is an edge exactly when the dictionary stores under some key a
definition whose subtree has a direct bare-name call to a key `b`. -/
theorem mem_edges_build (tree : Ast) (e : String × String) :
    e ∈ (build_call_graph (some tree)).edges ↔
      ∃ p ∈ funcsDict tree, ∃ n ∈ walk p.2, ∃ b,
        callTo n = some b ∧ hasKey (funcsDict tree) b = true ∧ e = (p.1, b) := by
  simp only [build_call_graph]
  rw [edges_outerFold]
  simp [DiGraph.empty]

/-- Every node of the built call graph is a key of the dictionary. -/
theorem mem_nodes_build (tree : Ast) (m : String)
    (h : m ∈ (build_call_graph (some tree)).nodes) :
    hasKey (funcsDict tree) m = true := by
  simp only [build_call_graph] at h
  rcases nodes_outerFold _ _ _ _ h with h1 | h1 | h1
  · simp [DiGraph.empty] at h1
  · obtain ⟨p, hp, rfl⟩ := h1
    exact (hasKey_iff _ _).mpr ⟨p.2, by simpa using hp⟩
  · exact h1

/-!
Remaining helpers for the claims.
-/

theorem length_filterMap_defName (l : List Ast) :
    (l.filterMap defName).length = l.countP isFuncDef := by
  induction l with
  | nil => rfl
  | cons n rest ih =>
    cases n <;>
      simp [defName, isFuncDef, List.filterMap_cons, List.countP_cons, ih]

/-- The length the code attributes to a stored catalog definition:
`body[-1].lineno - body[0].lineno + 1` when the body is non-empty. -/
def bodyLen : Ast → Option Int
  | .FunctionDef _ body _ =>
    match body.head?, body.getLast? with
    | some first, some last => some ((last.lineno : Int) - (first.lineno : Int) + 1)
    | _, _ => none
  | _ => none

theorem longEntry_eq_record (threshold : Int) (n : Ast) :
    longEntry threshold n =
      (match n with
        | .FunctionDef name body l => some (name, Ast.FunctionDef name body l)
        | _ => none).bind
        (fun p =>
          match bodyLen p.2 with
          | some L => if L > threshold then some (p.1, L) else none
          | none => none) := by
  cases n <;> simp only [longEntry, bodyLen, Option.bind]
  case FunctionDef name body l =>
    cases hb : body.head? <;> cases hg : body.getLast? <;> simp [hb, hg]

theorem longEntry_name (threshold : Int) (n : Ast) (name : String) (L : Int)
    (h : longEntry threshold n = some (name, L)) :
    ∃ body l, n = .FunctionDef name body l := by
  cases n <;> simp only [longEntry] at h
  case FunctionDef name1 body l =>
    refine ⟨body, l, ?_⟩
    split at h
    · split at h
      · rename_i heq
        cases h
        rfl
      · cases h
    · cases h
  all_goals cases h

/-!
The claims.
-/

/-- C1: for an input source string that fails to parse, each of the four
analyses returns its empty result (an empty list, respectively the empty
graph) and, the `except` branch being an ordinary return, no exception
propagates to the caller. -/
theorem claim_C1 (var_name : String) (threshold : Int) :
    parse_python_functions none = [] ∧
    find_variable_usage none var_name = [] ∧
    find_long_functions none threshold = [] ∧
    build_call_graph none = DiGraph.empty :=
  ⟨rfl, rfl, rfl, rfl⟩

theorem claim_C1_witness :
    parse_python_functions none = [] ∧
    find_variable_usage none ("x") = [] ∧
    find_long_functions none 0 = [] ∧
    build_call_graph none = DiGraph.empty :=
  claim_C1 ("x") 0

/-- C2 (counterexample): on the source `def f(): g()` / `def f(): pass`
/ `def g(): pass`, the first catalog definition named `f` contains a
direct bare-name call to the catalog name `g` — so the claimed edge
criterion holds for (f, g) — yet the built graph has no such edge,
because the function dictionary keeps only the last definition named
`f`, whose body is `pass`. -/
theorem claim_C2_cx :
    specEdgeExists cxC2 ("f") ("g") = true ∧
    ("f", "g") ∉ (build_call_graph (some cxC2)).edges := by
  decide

/-- C2 (amended): an edge `(a, b)` exists exactly when the definition
stored in the function dictionary under key `a` — for colliding names,
the last definition walked — has a direct bare-name call to `b` in its
subtree and `b` is a dictionary key; and on `def f(): pass` /
`def g(): f()` the graph is exactly nodes f, g with the single edge
(g, f). -/
theorem claim_C2 (tree : Ast) (a b : String) :
    ((a, b) ∈ (build_call_graph (some tree)).edges ↔
      ∃ fnode, (a, fnode) ∈ funcsDict tree ∧
        (∃ n ∈ walk fnode, callTo n = some b) ∧
        hasKey (funcsDict tree) b = true) ∧
    build_call_graph (some treeA) = ⟨["f", "g"], [("g", "f")]⟩ := by
  constructor
  · rw [mem_edges_build]
    constructor
    · rintro ⟨p, hp, n, hn, b1, hc, hk, he⟩
      have ha : a = p.1 := congrArg Prod.fst he
      have hb : b = b1 := congrArg Prod.snd he
      subst hb
      refine ⟨p.2, ?_, ⟨n, hn, hc⟩, hk⟩
      rw [ha]
      simpa using hp
    · rintro ⟨fnode, hf, ⟨n, hn, hc⟩, hk⟩
      exact ⟨(a, fnode), hf, n, hn, b, hc, hk, rfl⟩
  · decide

theorem claim_C2_witness : ("g", "f") ∈ (build_call_graph (some treeA)).edges := by
  apply (claim_C2 treeA ("g") ("f")).1.mpr
  refine ⟨Ast.FunctionDef ("g") [.ExprStmt (.Call (.Name ("f") .Load 2) [] 2) 2] 2,
    ?_, ?_, by decide⟩
  · rw [show funcsDict treeA =
      [(("f"), Ast.FunctionDef ("f") [.Pass 1] 1),
       (("g"), Ast.FunctionDef ("g") [.ExprStmt (.Call (.Name ("f") .Load 2) [] 2) 2] 2)]
      from rfl]
    exact List.Mem.tail _ (List.Mem.head _)
  · refine ⟨Ast.Call (.Name ("f") .Load 2) [] 2, ?_, rfl⟩
    rw [show walk (Ast.FunctionDef ("g") [.ExprStmt (.Call (.Name ("f") .Load 2) [] 2) 2] 2) =
      [Ast.FunctionDef ("g") [.ExprStmt (.Call (.Name ("f") .Load 2) [] 2) 2] 2,
       Ast.ExprStmt (.Call (.Name ("f") .Load 2) [] 2) 2,
       Ast.Call (.Name ("f") .Load 2) [] 2,
       Ast.Name ("f") .Load 2] from rfl]
    exact List.Mem.tail _ (List.Mem.tail _ (List.Mem.head _))

/-- C3: the catalog has exactly one record per `FunctionDef` node of the
tree, nested definitions included, and two same-named definitions give
two records (`["h", "h"]` for scenario E), never collapsed. -/
theorem claim_C3 (tree : Ast) :
    (parse_python_functions (some tree)).length = treeCount isFuncDef tree ∧
    parse_python_functions (some treeE) = ["h", "h"] := by
  constructor
  · simp only [parse_python_functions]
    rw [walk_eq_walkAux, length_filterMap_defName, countP_walkAux]
    simp
  · decide

theorem claim_C3_witness :
    parse_python_functions (some treeE) = ["h", "h"] ∧
    (parse_python_functions (some treeE)).length = treeCount isFuncDef treeE :=
  ⟨(claim_C3 treeE).2, (claim_C3 treeE).1⟩

/-- C4 (counterexample): for `def f():` (line 1) / `    x = 1` (line 2),
the function's whole span is lines 1-2, so the spec's length
`end_line - start_line + 1` is 2 and the function must be reported at
threshold 1; the code measures `body[-1].lineno - body[0].lineno + 1 = 1`
and reports nothing. -/
theorem claim_C4_cx :
    specLongFunctions cxC4 1 = [("f", 2)] ∧
    find_long_functions (some cxC4) 1 = [] := by
  decide

/-- C4 (amended): `find_long_functions` returns, in catalog order, the
`(name, length)` pairs with length strictly greater than the threshold,
where length is `body[-1].lineno - body[0].lineno + 1` — the span from
the first line of the first body statement to the first line of the last
body statement, the `def` line excluded; a function whose body statements
start at lines 5 and 14 is reported as length 10 at threshold 9 and not
reported at threshold 10. -/
theorem claim_C4 (tree : Ast) (threshold : Int) :
    find_long_functions (some tree) threshold =
      (defRecords tree).filterMap (fun p =>
        match bodyLen p.2 with
        | some L => if L > threshold then some (p.1, L) else none
        | none => none) ∧
    find_long_functions (some treeC) 9 = [("long_fn", 10)] ∧
    find_long_functions (some treeC) 10 = [] := by
  refine ⟨?_, by decide, by decide⟩
  simp only [find_long_functions, defRecords]
  rw [List.filterMap_filterMap]
  congr 1
  funext n
  exact longEntry_eq_record threshold n

theorem claim_C4_witness : find_long_functions (some treeC) 9 = [("long_fn", 10)] :=
  (claim_C4 treeC 9).2.1

/-- C5 (counterexample): for the source `x = 1`, the only occurrence of
`x` is the assignment target — a Store-context `Name`, not a read
reference — yet `find_variable_usage` reports line 1, so the analysis
does not report only read references. -/
theorem claim_C5_cx :
    find_variable_usage (some cxC5) ("x") = [1] ∧
    specOnlyReadRefs cxC5 ("x") = false := by
  decide

/-- C5 (amended): a line is reported exactly when some identifier
(`ast.Name`) node with exactly the queried name — case-sensitively, in
any context, assignment targets included — sits on that line; function
definition names, string-literal contents and attribute member names are
not `Name` nodes and are never reported. -/
theorem claim_C5 (tree : Ast) (var_name : String) (line : Nat) :
    line ∈ find_variable_usage (some tree) var_name ↔
      ∃ c, Ast.Name var_name c line ∈ walk tree :=
  mem_find_variable_usage tree var_name line

theorem claim_C5_witness : 1 ∈ find_variable_usage (some cxC5) ("x") := by
  apply (claim_C5 cxC5 ("x") 1).mpr
  refine ⟨Ctx.Store, ?_⟩
  rw [show walk cxC5 =
    [cxC5, Ast.Assign [.Name ("x") .Store 1] (.Constant 1) 1,
     Ast.Name ("x") .Store 1, Ast.Constant 1] from rfl]
  exact List.Mem.tail _ (List.Mem.tail _ (List.Mem.head _))

/-- C6: the reported line numbers are strictly ascending and free of
duplicates, and scenario B (`x = 1` / `print(x)` / `x = x + 1`, query
`x`) yields exactly [1, 2, 3]. -/
theorem claim_C6 (tree : Ast) (var_name : String) :
    List.Chain' (· < ·) (find_variable_usage (some tree) var_name) ∧
    (find_variable_usage (some tree) var_name).Nodup ∧
    find_variable_usage (some treeB) ("x") = [1, 2, 3] := by
  refine ⟨?_, ?_, by decide⟩
  · simp only [find_variable_usage]
    exact List.Pairwise.chain' (pairwise_sortedDedup _)
  · simp only [find_variable_usage]
    exact (pairwise_sortedDedup _).imp (fun h => Nat.ne_of_lt h)

theorem claim_C6_witness :
    find_variable_usage (some treeB) ("x") = [1, 2, 3] ∧
    List.Chain' (· < ·) (find_variable_usage (some treeB) ("x")) :=
  ⟨(claim_C6 treeB ("x")).2.2, (claim_C6 treeB ("x")).1⟩

/-- C7 (counterexample): for `def a(): def c(): ...` followed by
`def b(): pass`, pre-order lists a, c, b, but the catalog is a, b, c:
the subtree of `a` is not listed before the later sibling `b`. -/
theorem claim_C7_cx :
    parse_python_functions (some cxC7) = ["a", "b", "c"] ∧
    preorderNames cxC7 = ["a", "c", "b"] ∧
    parse_python_functions (some cxC7) ≠ preorderNames cxC7 := by
  decide

/-- C7 (amended): the catalog lists definitions in breadth-first level
order — all definitions of one nesting depth, left to right, before any
deeper one — so an enclosing function still precedes the definitions
nested inside it, but a nested subtree is not listed before a later
sibling. -/
theorem claim_C7 (tree : Ast) :
    parse_python_functions (some tree) = (levelTraversal [tree]).filterMap defName := by
  simp only [parse_python_functions]
  rw [walk_eq_walkAux, walkAux_eq_levelTraversal]

theorem claim_C7_witness :
    parse_python_functions (some treeA) = (levelTraversal [treeA]).filterMap defName :=
  claim_C7 treeA

/-- C8: every node of the call graph is a catalog name of the same
parse, for parse failures as well as for parsed sources. -/
theorem claim_C8 (source : Option Ast) (n : String)
    (h : n ∈ (build_call_graph source).nodes) :
    n ∈ parse_python_functions source := by
  cases source with
  | none => simp [build_call_graph, DiGraph.empty] at h
  | some tree => exact hasKey_mem_catalog tree n (mem_nodes_build tree n h)

theorem claim_C8_witness : ("f") ∈ parse_python_functions (some treeA) :=
  claim_C8 (some treeA) ("f") (by decide)

/-- C9: only plain `FunctionDef` nodes feed the analyses — every catalog
name, every length-report entry and every call-graph node stems from a
`FunctionDef` node of the walk — and a source holding only an async def
and a lambda yields an empty catalog, empty length report and empty
graph. -/
theorem claim_C9 :
    (∀ (tree : Ast) (name : String), name ∈ parse_python_functions (some tree) →
      ∃ body l, Ast.FunctionDef name body l ∈ walk tree) ∧
    (∀ (tree : Ast) (threshold : Int) (name : String) (len : Int),
      (name, len) ∈ find_long_functions (some tree) threshold →
      ∃ body l, Ast.FunctionDef name body l ∈ walk tree) ∧
    (∀ (tree : Ast) (name : String), name ∈ (build_call_graph (some tree)).nodes →
      ∃ body l, Ast.FunctionDef name body l ∈ walk tree) ∧
    (parse_python_functions (some treeC9) = [] ∧
     find_long_functions (some treeC9) 0 = [] ∧
     build_call_graph (some treeC9) = DiGraph.empty) := by
  refine ⟨?_, ?_, ?_, by decide⟩
  · intro tree name h
    simp only [parse_python_functions, List.mem_filterMap] at h
    obtain ⟨n, hn, he⟩ := h
    cases n <;> simp [defName] at he
    case FunctionDef name1 body l =>
      subst he
      exact ⟨body, l, hn⟩
  · intro tree threshold name len h
    simp only [find_long_functions, List.mem_filterMap] at h
    obtain ⟨n, hn, he⟩ := h
    obtain ⟨body, l, rfl⟩ := longEntry_name threshold n name len he
    exact ⟨body, l, hn⟩
  · intro tree name h
    have hk := mem_nodes_build tree name h
    obtain ⟨v, hv⟩ := (hasKey_iff _ _).mp hk
    obtain ⟨hw, body, l, rfl⟩ := funcsDict_mem tree name v hv
    exact ⟨body, l, hw⟩

theorem claim_C9_witness : ∃ body l, Ast.FunctionDef ("f") body l ∈ walk treeA :=
  claim_C9.1 treeA ("f") (by decide)

/-- C10: a call inside a nested definition produces an edge from every
catalog function whose stored subtree contains it — the whole subtree of
each dictionary entry is scanned — so for `def f(): def g(): h()` with
`def h(): pass`, both (f, h) and (g, h) are edges. -/
theorem claim_C10 :
    (∀ (tree : Ast) (a b : String) (fnode : Ast),
      (a, fnode) ∈ funcsDict tree →
      (∃ n ∈ walk fnode, callTo n = some b) →
      hasKey (funcsDict tree) b = true →
      (a, b) ∈ (build_call_graph (some tree)).edges) ∧
    ("f", "h") ∈ (build_call_graph (some treeC10)).edges ∧
    ("g", "h") ∈ (build_call_graph (some treeC10)).edges := by
  refine ⟨?_, by decide, by decide⟩
  rintro tree a b fnode hf ⟨n, hn, hc⟩ hk
  rw [mem_edges_build]
  exact ⟨(a, fnode), hf, n, hn, b, hc, hk, rfl⟩

theorem claim_C10_witness : ("f", "h") ∈ (build_call_graph (some treeC10)).edges :=
  claim_C10.2.1
